import Mathlib

/-!
# Tegola atlas: layer filters and the tile encoder

A shallow embedding of `atlas/map.go` (`Map.FilterLayersByZoom`,
`Map.FilterLayersByName`, `Map.Encode`) together with the fixtures of
`atlas/atlas_test.go`, and the properties proved about them.

Conventions of the embedding:

* a Go `string` is a Lean `String`; `strings.Contains` and `strings.Join` are
  re-implemented on the character lists (on well-formed UTF-8 text, a substring
  of bytes that is itself well-formed is a substring of characters);
* a Go `int` is an `Int` (the only operations on zoom levels are comparisons,
  which cannot overflow);
* a Go slice is a `List`; `append(s, x)` is `s ++ [x]`;
* a Go `(value, error)` result is a pair of options, `none` standing for `nil`.
-/

namespace Atlas

/-! ## Strings -/

/-- Go `strings.HasPrefix`, on character lists: `p` is an initial segment of `s`. -/
def HasPrefix : List Char → List Char → Bool
  | _, [] => true
  | [], _ :: _ => false
  | c :: s, d :: p => c == d && HasPrefix s p

/-- Go `strings.Index(s, substr) >= 0`, on character lists: some suffix of `s`
starts with `substr`. -/
def ContainsChars : List Char → List Char → Bool
  | [], p => HasPrefix [] p
  | c :: s, p => HasPrefix (c :: s) p || ContainsChars s p

/-- Go `strings.Contains(s, substr)`. -/
def Contains (s substr : String) : Bool :=
  ContainsChars s.data substr.data

/-- Go `strings.Join(elems, sep)`. -/
def Join : List String → String → String
  | [], _ => ""
  | [a], _ => a
  | a :: b :: rest, sep => a ++ sep ++ Join (b :: rest) sep

/-! ## Data model -/

/-- Tags of a feature or default tags of a layer: Go `map[string]interface{}`,
as an association list looked up by key. -/
abbrev Tags := List (String × String)

/-- Geometry kinds used for `Layer.GeomType` in the sources. -/
inductive GeomType where
  | Point
  | LineString
  | Polygon
  deriving DecidableEq, Repr

/-- Modelled from the spec: the declaration of `atlas.Layer` (atlas/layer.go) is
not among the sources. The fields are the ones `map.go` and `atlas_test.go` use:
display name, provider-layer-name, min/max zoom, provider handle (a reference to
an external data provider, here its identifier), geometry kind, default tags. -/
structure Layer where
  Name : String
  ProviderLayerName : String
  MinZoom : Int
  MaxZoom : Int
  Provider : Nat
  GeomType : GeomType
  DefaultTags : Tags
  deriving DecidableEq, Repr

/-- The `Map` struct of `atlas/map.go`. The `float64` entries of `Bounds` and
`Center` are only carried along, never computed with; they are kept as
rationals. -/
structure Map where
  Name : String
  Attribution : String
  Bounds : List Rat
  Center : List Rat
  Layers : List Layer
  SRID : Nat
  TileExtent : Nat
  TileBuffer : Nat

/-! ## The filters -/

/-- The condition of the `if` in `FilterLayersByZoom`. -/
def zoomMatches (l : Layer) (zoom : Int) : Bool :=
  (decide (l.MinZoom ≤ zoom) || l.MinZoom == 0) && (decide (l.MaxZoom ≥ zoom) || l.MaxZoom == 0)

/-- `Map.FilterLayersByZoom`: loop over `m.Layers`, appending the layers whose
zoom range matches, then overwrite the layers of the (copied) map. -/
def FilterLayersByZoom (m : Map) (zoom : Int) : Map :=
  let layers := m.Layers.foldl
    (fun (layers : List Layer) (l : Layer) =>
      if zoomMatches l zoom then layers ++ [l] else layers) []
  { m with Layers := layers }

/-- The two-armed condition of the loop body of `FilterLayersByName`:
`Name != "" && Contains(nameStr, Name)`, else
`ProviderLayerName != "" && Contains(nameStr, ProviderLayerName)`. -/
def nameMatches (nameStr : String) (l : Layer) : Bool :=
  if l.Name != "" && Contains nameStr l.Name then true
  else if l.ProviderLayerName != "" && Contains nameStr l.ProviderLayerName then true
  else false

/-- `Map.FilterLayersByName`: join the requested names with a comma, loop over
`m.Layers` appending the layers that match, then overwrite the layers of the
(copied) map. -/
def FilterLayersByName (m : Map) (names : List String) : Map :=
  let nameStr := Join names ","
  let layers := m.Layers.foldl
    (fun (layers : List Layer) (l : Layer) =>
      if nameMatches nameStr l then layers ++ [l] else layers) []
  { m with Layers := layers }

/-! ## The encoder: data model -/

/-- Go `error` values as far as `Encode` tells them apart: the sentinel
`context.Canceled`, the other context error, and every other error. -/
inductive Error where
  | Canceled
  | DeadlineExceeded
  | Other (msg : String)
  deriving DecidableEq, Repr

/-- The `context.Context` handed to `Encode`, as observed by the check after the
wait group: `Err` is what `ctx.Err()` returns there (`none` for `nil`). Once
non-nil, successive calls return the same error. -/
structure Context where
  Err : Option Error
  deriving DecidableEq, Repr

/-- The `slippy.Tile` of a request, as far as `Encode` uses it. -/
structure Tile where
  Z : Nat
  X : Nat
  Y : Nat
  deriving DecidableEq, Repr

/-- `tile.ZXY()`. -/
def Tile.ZXY (t : Tile) : Nat × Nat × Nat := (t.Z, t.X, t.Y)

/-- `provider.Feature`, over the provider-native geometry type `G`. -/
structure Feature (G : Type) where
  ID : Nat
  Geometry : G
  SRID : Nat
  Tags : Tags
  deriving DecidableEq, Repr

/-- `mvt.Feature` as `Encode` builds it, over the internal geometry type `T`;
`ID` is a pointer in the source. -/
structure MvtFeature (T : Type) where
  ID : Option Nat
  Tags : Tags
  Geometry : T
  deriving DecidableEq, Repr

/-- `mvt.Layer`: a name and the accumulated features. -/
structure MvtLayer (T : Type) where
  Name : String
  features : List (MvtFeature T)
  deriving DecidableEq, Repr

/-- Modelled from the spec: `mvt.Layer.AddFeatures` (package mvt) is not among
the sources; the spec has the task accumulate each converted feature into the
per-layer output buffer. -/
def MvtLayer.AddFeatures {T : Type} (l : MvtLayer T) (fs : List (MvtFeature T)) : MvtLayer T :=
  { l with features := l.features ++ fs }

/-- `mvt.Tile`: the layers added so far. -/
structure MvtTile (T : Type) where
  layers : List (MvtLayer T)
  deriving DecidableEq, Repr

/-- Modelled from the spec: `mvt.Tile.AddLayers` (package mvt) is not among the
sources; the spec has the populated slots assembled, skipping unpopulated ones,
in the order given. -/
def MvtTile.AddLayers {T : Type} (t : MvtTile T) (layers : List (Option (MvtLayer T))) :
    MvtTile T :=
  { layers := t.layers ++ layers.reduceOption }

/-- Modelled from the spec: the Data Provider capability is an interface whose
implementations are not among the sources. One call of `Provider.TileFeatures`
is described by the features it streams to the callback, in order, and the
error it returns once the stream is exhausted (`none` for `nil`). -/
structure ProviderCall (G : Type) where
  features : List (Feature G)
  err : Option Error

/-- Modelled from the spec: `TileFeatures` invokes the callback once per feature,
synchronously and in order; a failure of the callback short-circuits the stream
and is the result of the call. The callback acts on a state `σ` (the variables
it captures). -/
def ProviderCall.TileFeatures {G σ : Type} (fn : Feature G → σ → Except Error σ) :
    List (Feature G) → Option Error → σ → σ × Option Error
  | [], err, s => (s, err)
  | f :: fs, err, s =>
    match fn f s with
    | Except.error e => (s, some e)
    | Except.ok s1 => ProviderCall.TileFeatures fn fs err s1

/-- The collaborators `Encode` calls whose code is not among the sources.
`TileFeatures i p ctx name tile` is what the provider with handle `p` does on the
call made by the task of slot `i` (two calls with the same arguments need not
behave alike); `ToTegola` is `convert.ToTegola`; `VTile` is `mvt.Tile.VTile`
applied to the tile built by `tegola.NewTile(z, x, y)`; `Marshal` is
`proto.Marshal`. -/
structure World (G T V : Type) where
  TileFeatures : Nat → Nat → Context → String → Tile → ProviderCall G
  ToTegola : G → Except Error T
  VTile : Context → MvtTile T → Nat × Nat × Nat → Except Error V
  Marshal : V → Option (List Nat) × Option Error

/-! ## The encoder -/

/-- The callback `Encode` passes to `TileFeatures`: convert the geometry, fail on
a conversion error, otherwise add the feature (ID, the feature's own tags, the
converted geometry) to the captured `mvtLayer`. -/
def encodeCallback {G T V : Type} (W : World G T V) (f : Feature G) (mvtLayer : MvtLayer T) :
    Except Error (MvtLayer T) :=
  match W.ToTegola f.Geometry with
  | Except.error err => Except.error err
  | Except.ok geo =>
    Except.ok (mvtLayer.AddFeatures [{ ID := some f.ID, Tags := f.Tags, Geometry := geo }])

/-- What the provider call of the task `(i, l)` returns, with the layer the
callback has accumulated. -/
def encodeFetch {G T V : Type} (W : World G T V) (ctx : Context) (tile : Tile) (i : Nat)
    (l : Layer) : MvtLayer T × Option Error :=
  let call := W.TileFeatures i l.Provider ctx l.ProviderLayerName tile
  ProviderCall.TileFeatures (encodeCallback W) call.features call.err
    { Name := "", features := [] }

/-- Outcome of one per-layer goroutine: the value it stores in its result slot
(`none` when it returns without storing), and whether it logged. -/
structure TaskResult (T : Type) where
  slot : Option (MvtLayer T)
  logged : Bool

/-- The goroutine body of `Encode` for the task `(i, l)`. -/
def encodeTask {G T V : Type} (W : World G T V) (ctx : Context) (tile : Tile) (i : Nat)
    (l : Layer) : TaskResult T :=
  match encodeFetch W ctx tile i l with
  | (_, some Error.Canceled) => { slot := none, logged := false }
  | (_, some _) => { slot := none, logged := true }
  | (mvtLayer, none) =>
    let mvtLayer := if l.Name != "" then { mvtLayer with Name := l.Name } else mvtLayer
    { slot := some mvtLayer, logged := false }

/-- Completion of the task `t = (i, l)`: the write `mvtLayers[i] = &mvtLayer`, if
the task gets that far. -/
def encodeComplete {G T V : Type} (W : World G T V) (ctx : Context) (tile : Tile)
    (mvtLayers : List (Option (MvtLayer T))) (t : Nat × Layer) : List (Option (MvtLayer T)) :=
  match (encodeTask W ctx tile t.1 t.2).slot with
  | some mvtLayer => mvtLayers.set t.1 (some mvtLayer)
  | none => mvtLayers

/-- The result slots once the wait group is done: `mvtLayers` starts as
`len(m.Layers)` nil slots, and the launched tasks complete in the order `sched`. -/
def encodeSlots {G T V : Type} (W : World G T V) (m : Map) (ctx : Context) (tile : Tile)
    (sched : List (Nat × Layer)) : List (Option (MvtLayer T)) :=
  sched.foldl (encodeComplete W ctx tile) (List.replicate m.Layers.length none)

/-- The tile `Encode` hands to `VTile` when the context has no error: the empty
`mvtTile` after `mvtTile.AddLayers(mvtLayers...)`. -/
def encodeTile {G T V : Type} (W : World G T V) (m : Map) (ctx : Context) (tile : Tile)
    (sched : List (Nat × Layer)) : MvtTile T :=
  MvtTile.AddLayers { layers := [] } (encodeSlots W m ctx tile sched)

/-- `Map.Encode`. The goroutines launched for `m.Layers.enum` complete in the
order `sched` (every launched task has completed when `wg.Wait()` returns); the
result is the Go pair `([]byte, error)`. -/
def Encode {G T V : Type} (W : World G T V) (m : Map) (ctx : Context) (tile : Tile)
    (sched : List (Nat × Layer)) : Option (List Nat) × Option Error :=
  let mvtLayers := encodeSlots W m ctx tile sched
  match ctx.Err with
  | some e => (none, some e)
  | none =>
    let mvtTile := MvtTile.AddLayers { layers := [] } mvtLayers
    match W.VTile ctx mvtTile tile.ZXY with
    | Except.error err => (none, some err)
    | Except.ok vtile => W.Marshal vtile

/-! ## Fixtures of `atlas_test.go` -/

/-- `testLayer1` of `atlas_test.go`. -/
def testLayer1 : Layer :=
  { Name := "test-layer", ProviderLayerName := "test-layer-1", MinZoom := 4, MaxZoom := 9,
    Provider := 0, GeomType := GeomType.Point, DefaultTags := [("foo", "bar")] }

/-- `testLayer2` of `atlas_test.go`. -/
def testLayer2 : Layer :=
  { Name := "test-layer-2-name", ProviderLayerName := "test-layer-2-provider-layer-name",
    MinZoom := 10, MaxZoom := 20, Provider := 0, GeomType := GeomType.LineString,
    DefaultTags := [("foo", "bar")] }

/-- `testLayer3` of `atlas_test.go`. -/
def testLayer3 : Layer :=
  { Name := "test-layer", ProviderLayerName := "test-layer-3", MinZoom := 10, MaxZoom := 20,
    Provider := 0, GeomType := GeomType.Point, DefaultTags := [] }

/-- `testMap` of `atlas_test.go`. -/
def testMap : Map :=
  { Name := "test-map", Attribution := "test attribution", Bounds := [0, 0, 0, 0],
    Center := [1, 2, 3], Layers := [testLayer1, testLayer2, testLayer3],
    SRID := 0, TileExtent := 0, TileBuffer := 0 }

/-- A layer whose display name holds a comma. -/
def commaLayer : Layer :=
  { Name := "land,water", ProviderLayerName := "", MinZoom := 0, MaxZoom := 0,
    Provider := 0, GeomType := GeomType.Polygon, DefaultTags := [] }

/-- The provider of `atlas_test.go`: every call streams one feature with ID 0
and the tag `type = debug_buffer_outline`, and returns the callback's error or
nil. The geometry (built from the tile extent in the test) is a placeholder. -/
def testTileProvider : ProviderCall Nat :=
  { features := [{ ID := 0, Geometry := 0, SRID := 3857,
                   Tags := [("type", "debug_buffer_outline")] }],
    err := none }

/-- A world around `testTileProvider`: conversion, assembly and marshalling
succeed; the marshalled bytes are the number of layers and their feature
counts. -/
def testWorld : World Nat Nat (List Nat) :=
  { TileFeatures := fun _ _ _ _ _ => testTileProvider
    ToTegola := fun g => Except.ok g
    VTile := fun _ t _ => Except.ok (t.layers.length :: t.layers.map (fun l => l.features.length))
    Marshal := fun v => (some v, none) }

/-- A world in which the provider call of slot 1 fails with a backend error. -/
def failingWorld : World Nat Nat (List Nat) :=
  { testWorld with
    TileFeatures := fun i _ _ _ _ =>
      if i = 1 then { features := [], err := some (Error.Other "backend down") }
      else testTileProvider }

/-- The world `failingWorld` with an assembler that fails: `VTile` reports an
error on every tile. -/
def brokenAssemblerWorld : World Nat Nat (List Nat) :=
  { failingWorld with
    VTile := fun _ _ _ => Except.error (Error.Other "vtile failed") }

/-! ## Helper lemmas on strings -/

theorem HasPrefix_iff (s p : List Char) : HasPrefix s p = true ↔ p <+: s := by
  induction s generalizing p with
  | nil =>
    cases p with
    | nil => simp [HasPrefix]
    | cons d p => simp [HasPrefix]
  | cons c s ih =>
    cases p with
    | nil => simp [HasPrefix]
    | cons d p =>
      simp only [HasPrefix, Bool.and_eq_true, beq_iff_eq, ih, List.cons_prefix_cons]
      constructor
      · rintro ⟨h1, h2⟩
        exact ⟨h1.symm, h2⟩
      · rintro ⟨h1, h2⟩
        exact ⟨h1.symm, h2⟩

theorem ContainsChars_iff (s p : List Char) : ContainsChars s p = true ↔ p <:+: s := by
  induction s with
  | nil =>
    cases p with
    | nil => simp [ContainsChars, HasPrefix]
    | cons d p => simp [ContainsChars, HasPrefix]
  | cons c s ih =>
    simp only [ContainsChars, Bool.or_eq_true, HasPrefix_iff, ih, List.infix_cons_iff]

theorem Contains_iff (s substr : String) :
    Contains s substr = true ↔ substr.data <:+: s.data := by
  unfold Contains
  exact ContainsChars_iff _ _

theorem infix_Join_of_mem (names : List String) (sep n : String) (h : n ∈ names) :
    n.data <:+: (Join names sep).data := by
  induction names with
  | nil => cases h
  | cons a rest ih =>
    cases rest with
    | nil =>
      rw [List.mem_singleton] at h
      subst h
      exact List.infix_refl _
    | cons b rest =>
      have hdata : (Join (a :: b :: rest) sep).data
          = a.data ++ (sep.data ++ (Join (b :: rest) sep).data) := by
        simp [Join, String.data_append]
      rw [hdata]
      rcases List.mem_cons.1 h with heq | htl
      · subst heq
        exact (List.prefix_append _ _).isInfix
      · exact (ih htl).trans
          ((List.suffix_append _ _).isInfix.trans (List.suffix_append _ _).isInfix)

theorem prefix_of_prefix_append_sep (c : Char) (p x y : List Char) (hc : c ∉ p)
    (h : p <+: x ++ c :: y) : p <+: x := by
  induction x generalizing p with
  | nil =>
    cases p with
    | nil => exact List.prefix_refl _
    | cons d p =>
      rw [List.nil_append, List.cons_prefix_cons] at h
      exact absurd (by rw [h.1]; exact List.mem_cons_self _ _) hc
  | cons a x ih =>
    cases p with
    | nil => exact List.nil_prefix
    | cons d p =>
      rw [List.cons_append, List.cons_prefix_cons] at h
      rw [List.cons_prefix_cons]
      exact ⟨h.1, ih p (fun hm => hc (List.mem_cons_of_mem _ hm)) h.2⟩

theorem infix_append_sep_iff (c : Char) (p x y : List Char) (hc : c ∉ p) (hp : p ≠ []) :
    p <:+: x ++ c :: y ↔ p <:+: x ∨ p <:+: y := by
  constructor
  · intro h
    induction x with
    | nil =>
      rw [List.nil_append, List.infix_cons_iff] at h
      rcases h with h | h
      · have := prefix_of_prefix_append_sep c p [] y hc (by simpa using h)
        exact absurd (List.prefix_nil.1 this) hp
      · exact Or.inr h
    | cons a x ih =>
      rw [List.cons_append, List.infix_cons_iff] at h
      rcases h with h | h
      · exact Or.inl (prefix_of_prefix_append_sep c p (a :: x) y hc h).isInfix
      · rcases ih h with h1 | h1
        · exact Or.inl (h1.trans (List.suffix_cons _ _).isInfix)
        · exact Or.inr h1
  · rintro (h | h)
    · exact h.trans (List.prefix_append _ _).isInfix
    · exact h.trans ((List.suffix_cons _ _).isInfix.trans (List.suffix_append _ _).isInfix)

theorem infix_Join_iff (names : List String) (p : List Char) (hc : ',' ∉ p) (hp : p ≠ []) :
    p <:+: (Join names ",").data ↔ ∃ n ∈ names, p <:+: n.data := by
  induction names with
  | nil =>
    have : (Join [] ",").data = [] := rfl
    simp [this, hp]
  | cons a rest ih =>
    cases rest with
    | nil => simp [Join]
    | cons b rest =>
      have hdata : (Join (a :: b :: rest) ",").data
          = a.data ++ ',' :: (Join (b :: rest) ",").data := by
        simp [Join, String.data_append]
      rw [hdata, infix_append_sep_iff ',' p _ _ hc hp, ih]
      simp

/-! ## Helper lemmas on the filter loops -/

theorem foldl_append_filter {α : Type} (p : α → Bool) (xs acc : List α) :
    xs.foldl (fun (layers : List α) (l : α) => if p l then layers ++ [l] else layers) acc
      = acc ++ xs.filter p := by
  induction xs generalizing acc with
  | nil => simp
  | cons x xs ih =>
    simp only [List.foldl_cons, ih]
    by_cases hx : p x = true
    · simp [hx, List.filter_cons]
    · simp [hx, List.filter_cons]

theorem FilterLayersByZoom_layers (m : Map) (zoom : Int) :
    (FilterLayersByZoom m zoom).Layers = m.Layers.filter (fun l => zoomMatches l zoom) := by
  simp [FilterLayersByZoom, foldl_append_filter]

theorem FilterLayersByName_layers (m : Map) (names : List String) :
    (FilterLayersByName m names).Layers
      = m.Layers.filter (fun l => nameMatches (Join names ",") l) := by
  simp [FilterLayersByName, foldl_append_filter]

/-- The lookup of `FilterLayersByName`, spelled out: a layer is returned when its
non-empty Name, or else its non-empty ProviderLayerName, is a substring of the
comma-joined names. -/
theorem mem_FilterLayersByName_iff (m : Map) (names : List String) (l : Layer) :
    l ∈ (FilterLayersByName m names).Layers ↔
      l ∈ m.Layers ∧ ((l.Name ≠ "" ∧ l.Name.data <:+: (Join names ",").data)
        ∨ (l.ProviderLayerName ≠ "" ∧ l.ProviderLayerName.data <:+: (Join names ",").data)) := by
  rw [FilterLayersByName_layers, List.mem_filter]
  apply and_congr Iff.rfl
  unfold nameMatches
  by_cases h1 : (l.Name != "" && Contains (Join names ",") l.Name) = true
  · have h1c := h1
    simp only [Bool.and_eq_true, bne_iff_ne, ne_eq, Contains_iff] at h1c
    simp [h1, h1c]
  · by_cases h2 : (l.ProviderLayerName != ""
        && Contains (Join names ",") l.ProviderLayerName) = true
    · have h2c := h2
      simp only [Bool.and_eq_true, bne_iff_ne, ne_eq, Contains_iff] at h2c
      simp [h1, h2, h2c]
    · have h1c := h1
      have h2c := h2
      simp only [Bool.and_eq_true, bne_iff_ne, ne_eq, Contains_iff] at h1c h2c
      simp only [h1, h2, if_false, Bool.false_eq_true, false_iff]
      rintro (h | h)
      · exact h1c h
      · exact h2c h

/-- Every layer whose non-empty Name or non-empty ProviderLayerName is one of the
requested names is returned by `FilterLayersByName`. -/
theorem FilterLayersByName_includes_requested (m : Map) (names : List String) (l : Layer)
    (hl : l ∈ m.Layers)
    (h : (l.Name ≠ "" ∧ l.Name ∈ names)
      ∨ (l.ProviderLayerName ≠ "" ∧ l.ProviderLayerName ∈ names)) :
    l ∈ (FilterLayersByName m names).Layers := by
  rw [mem_FilterLayersByName_iff]
  refine ⟨hl, ?_⟩
  rcases h with ⟨h1, h2⟩ | ⟨h1, h2⟩
  · exact Or.inl ⟨h1, infix_Join_of_mem names "," _ h2⟩
  · exact Or.inr ⟨h1, infix_Join_of_mem names "," _ h2⟩

/-- On a map none of whose layer names holds a comma, the order of the requested
names does not matter. -/
theorem FilterLayersByName_perm_of_no_comma (m : Map) (names names2 : List String)
    (hperm : names2.Perm names)
    (hno : ∀ l ∈ m.Layers, ',' ∉ l.Name.data ∧ ',' ∉ l.ProviderLayerName.data) :
    (FilterLayersByName m names2).Layers = (FilterLayersByName m names).Layers := by
  have hdata : ∀ s : String, s ≠ "" → s.data ≠ [] := by
    intro s hs hnil
    apply hs
    cases s
    simp_all
  have key : ∀ s : String, ',' ∉ s.data → s ≠ "" →
      (s.data <:+: (Join names2 ",").data ↔ s.data <:+: (Join names ",").data) := by
    intro s hc hs
    rw [infix_Join_iff names2 _ hc (hdata s hs), infix_Join_iff names _ hc (hdata s hs)]
    constructor
    · rintro ⟨n, hn, h⟩
      exact ⟨n, hperm.mem_iff.1 hn, h⟩
    · rintro ⟨n, hn, h⟩
      exact ⟨n, hperm.mem_iff.2 hn, h⟩
  rw [FilterLayersByName_layers, FilterLayersByName_layers]
  apply List.filter_congr
  intro l hl
  obtain ⟨hc1, hc2⟩ := hno l hl
  have hiff : ∀ ns : List String, nameMatches (Join ns ",") l = true ↔
      ((l.Name ≠ "" ∧ l.Name.data <:+: (Join ns ",").data)
        ∨ (l.ProviderLayerName ≠ "" ∧ l.ProviderLayerName.data <:+: (Join ns ",").data)) := by
    intro ns
    have h := mem_FilterLayersByName_iff { m with Layers := [l] } ns l
    rw [FilterLayersByName_layers] at h
    simpa using h
  rw [Bool.eq_iff_iff, hiff, hiff]
  constructor
  · rintro (⟨h1, h2⟩ | ⟨h1, h2⟩)
    · exact Or.inl ⟨h1, (key _ hc1 h1).1 h2⟩
    · exact Or.inr ⟨h1, (key _ hc2 h1).1 h2⟩
  · rintro (⟨h1, h2⟩ | ⟨h1, h2⟩)
    · exact Or.inl ⟨h1, (key _ hc1 h1).2 h2⟩
    · exact Or.inr ⟨h1, (key _ hc2 h1).2 h2⟩

/-! ## Helper lemmas on the result slots -/

theorem encodeComplete_length {G T V : Type} (W : World G T V) (ctx : Context) (tile : Tile)
    (acc : List (Option (MvtLayer T))) (t : Nat × Layer) :
    (encodeComplete W ctx tile acc t).length = acc.length := by
  unfold encodeComplete
  split <;> simp

theorem encodeComplete_getElem?_ne {G T V : Type} (W : World G T V) (ctx : Context)
    (tile : Tile) (acc : List (Option (MvtLayer T))) (t : Nat × Layer) (j : Nat)
    (h : t.1 ≠ j) : (encodeComplete W ctx tile acc t)[j]? = acc[j]? := by
  unfold encodeComplete
  split
  · simp [List.getElem?_set, h]
  · rfl

theorem encodeComplete_getElem?_self {G T V : Type} (W : World G T V) (ctx : Context)
    (tile : Tile) (acc : List (Option (MvtLayer T))) (j : Nat) (l : Layer)
    (h : acc[j]? = some none) :
    (encodeComplete W ctx tile acc (j, l))[j]? = some (encodeTask W ctx tile j l).slot := by
  have hj : j < acc.length := by
    rcases Nat.lt_or_ge j acc.length with hlt | hge
    · exact hlt
    · rw [List.getElem?_eq_none hge] at h
      cases h
  unfold encodeComplete
  split
  · rename_i v hv
    simp [List.getElem?_set, hj, hv]
  · rename_i hv
    simp [hv, h]

theorem foldl_encodeComplete_length {G T V : Type} (W : World G T V) (ctx : Context)
    (tile : Tile) (ts : List (Nat × Layer)) (acc : List (Option (MvtLayer T))) :
    (ts.foldl (encodeComplete W ctx tile) acc).length = acc.length := by
  induction ts generalizing acc with
  | nil => rfl
  | cons t ts ih => simp [List.foldl_cons, ih, encodeComplete_length]

theorem foldl_encodeComplete_getElem?_ne {G T V : Type} (W : World G T V) (ctx : Context)
    (tile : Tile) (j : Nat) (ts : List (Nat × Layer)) (acc : List (Option (MvtLayer T)))
    (h : ∀ t ∈ ts, t.1 ≠ j) :
    (ts.foldl (encodeComplete W ctx tile) acc)[j]? = acc[j]? := by
  induction ts generalizing acc with
  | nil => rfl
  | cons t ts ih =>
    rw [List.foldl_cons, ih _ (fun u hu => h u (List.mem_cons_of_mem _ hu))]
    exact encodeComplete_getElem?_ne W ctx tile acc t j (h t (List.mem_cons_self _ _))

theorem foldl_encodeComplete_getElem?_mem {G T V : Type} (W : World G T V) (ctx : Context)
    (tile : Tile) (j : Nat) (l : Layer) (ts : List (Nat × Layer))
    (acc : List (Option (MvtLayer T))) (hnd : (ts.map Prod.fst).Nodup) (hmem : (j, l) ∈ ts)
    (hacc : acc[j]? = some none) :
    (ts.foldl (encodeComplete W ctx tile) acc)[j]? = some (encodeTask W ctx tile j l).slot := by
  induction ts generalizing acc with
  | nil => cases hmem
  | cons t ts ih =>
    rw [List.map_cons, List.nodup_cons] at hnd
    rw [List.foldl_cons]
    rcases List.mem_cons.1 hmem with heq | htl
    · subst heq
      rw [foldl_encodeComplete_getElem?_ne W ctx tile j ts _ ?_]
      · exact encodeComplete_getElem?_self W ctx tile acc j l hacc
      · intro u hu huj
        exact hnd.1 (List.mem_map.2 ⟨u, hu, huj⟩)
    · have hne : t.1 ≠ j := by
        intro htj
        exact hnd.1 (List.mem_map.2 ⟨(j, l), htl, htj.symm⟩)
      apply ih _ hnd.2 htl
      rw [encodeComplete_getElem?_ne W ctx tile acc t j hne]
      exact hacc

/-- Whatever the order in which the tasks complete, slot `i` holds what the task
of `m.Layers[i]` produced. -/
theorem encodeSlots_eq {G T V : Type} (W : World G T V) (m : Map) (ctx : Context) (tile : Tile)
    (sched : List (Nat × Layer)) (hs : sched.Perm m.Layers.enum) :
    encodeSlots W m ctx tile sched
      = m.Layers.enum.map (fun t => (encodeTask W ctx tile t.1 t.2).slot) := by
  have hnd : (sched.map Prod.fst).Nodup := by
    rw [(hs.map Prod.fst).nodup_iff, List.enum_map_fst]
    exact List.nodup_range _
  apply List.ext_getElem?
  intro j
  unfold encodeSlots
  rcases Nat.lt_or_ge j m.Layers.length with hlt | hge
  · have hmem : (j, m.Layers[j]) ∈ sched := by
      rw [hs.mem_iff, List.mk_mem_enum_iff_getElem?]
      exact List.getElem?_eq_getElem hlt
    rw [foldl_encodeComplete_getElem?_mem W ctx tile j m.Layers[j] sched _ hnd hmem
      (by simp [List.getElem?_replicate, hlt])]
    simp [List.getElem?_map, List.getElem?_enum, List.getElem?_eq_getElem hlt]
  · rw [List.getElem?_eq_none, List.getElem?_eq_none]
    · simpa using hge
    · rw [foldl_encodeComplete_length]
      simpa using hge

/-! ## Helper lemmas on the populated slots -/

theorem reduceOption_map_some {α : Type} (l : List (Option α)) (h : ∀ x ∈ l, x ≠ none) :
    l.reduceOption.map some = l := by
  induction l with
  | nil => rfl
  | cons x xs ih =>
    have hx : x ≠ none := h x (List.mem_cons_self _ _)
    have hxs : ∀ y ∈ xs, y ≠ none := fun y hy => h y (List.mem_cons_of_mem _ hy)
    cases x with
    | none => exact absurd rfl hx
    | some a => simp [List.reduceOption_cons_of_some, ih hxs]

theorem reduceOption_precedes {α : Type} (l : List (Option α)) (i j : Nat) (a b : α)
    (hij : i < j) (hi : l[i]? = some (some a)) (hj : l[j]? = some (some b)) :
    ∃ p q : Nat, p < q ∧ l.reduceOption[p]? = some a ∧ l.reduceOption[q]? = some b := by
  induction l generalizing i j with
  | nil => simp at hi
  | cons x xs ih =>
    cases j with
    | zero => omega
    | succ j =>
      rw [List.getElem?_cons_succ] at hj
      cases i with
      | zero =>
        rw [List.getElem?_cons_zero] at hi
        cases hi
        have hb : b ∈ xs.reduceOption :=
          List.reduceOption_mem_iff.2 (List.mem_iff_getElem?.2 ⟨j, hj⟩)
        obtain ⟨q, hq⟩ := List.mem_iff_getElem?.1 hb
        refine ⟨0, q + 1, Nat.succ_pos q, ?_, ?_⟩
        · simp [List.reduceOption_cons_of_some]
        · simp [List.reduceOption_cons_of_some, hq]
      | succ i =>
        rw [List.getElem?_cons_succ] at hi
        obtain ⟨p, q, hpq, hp, hq⟩ := ih i j (by omega) hi hj
        cases x with
        | none =>
          refine ⟨p, q, hpq, ?_, ?_⟩
          · simpa [List.reduceOption_cons_of_none] using hp
          · simpa [List.reduceOption_cons_of_none] using hq
        | some c =>
          refine ⟨p + 1, q + 1, by omega, ?_, ?_⟩
          · simpa [List.reduceOption_cons_of_some] using hp
          · simpa [List.reduceOption_cons_of_some] using hq

theorem reduceOption_eraseIdx {α : Type} (l : List (Option α)) (k : Nat)
    (hk : l[k]? = some none) (h : ∀ i, i ≠ k → l[i]? ≠ some none) :
    l.reduceOption.map some = l.eraseIdx k := by
  induction l generalizing k with
  | nil => simp at hk
  | cons x xs ih =>
    cases k with
    | zero =>
      rw [List.getElem?_cons_zero] at hk
      cases hk
      rw [List.reduceOption_cons_of_none, List.eraseIdx_cons_zero]
      apply reduceOption_map_some
      intro y hy hnone
      obtain ⟨n, hn⟩ := List.mem_iff_getElem?.1 hy
      exact h (n + 1) (Nat.succ_ne_zero n) (by rw [List.getElem?_cons_succ, hn, hnone])
    | succ k =>
      rw [List.getElem?_cons_succ] at hk
      have hx : x ≠ none := fun hnone =>
        h 0 (Nat.succ_ne_zero k).symm (by rw [List.getElem?_cons_zero, hnone])
      have hrest : ∀ i, i ≠ k → xs[i]? ≠ some none := fun i hik =>
        by simpa using h (i + 1) (by omega)
      cases x with
      | none => exact absurd rfl hx
      | some a => simp [List.reduceOption_cons_of_some, List.eraseIdx_cons_succ, ih k hk hrest]

theorem encodeTask_slot_of_error {G T V : Type} (W : World G T V) (ctx : Context) (tile : Tile)
    (i : Nat) (l : Layer) (e : Error) (h : (encodeFetch W ctx tile i l).2 = some e) :
    (encodeTask W ctx tile i l).slot = none := by
  unfold encodeTask
  split
  · rfl
  · rfl
  · rename_i heq
    rw [heq] at h
    cases h

theorem encodeTask_logged_of_error {G T V : Type} (W : World G T V) (ctx : Context)
    (tile : Tile) (i : Nat) (l : Layer) (e : Error)
    (h : (encodeFetch W ctx tile i l).2 = some e) (he : e ≠ Error.Canceled) :
    (encodeTask W ctx tile i l).logged = true := by
  unfold encodeTask
  split
  · rename_i heq
    rw [heq] at h
    cases h
    exact absurd rfl he
  · rfl
  · rename_i heq
    rw [heq] at h
    cases h

theorem encodeTask_slot_of_ok {G T V : Type} (W : World G T V) (ctx : Context) (tile : Tile)
    (i : Nat) (l : Layer) (h : (encodeFetch W ctx tile i l).2 = none) :
    (encodeTask W ctx tile i l).slot ≠ none := by
  unfold encodeTask
  split
  · rename_i heq
    rw [heq] at h
    cases h
  · rename_i heq
    rw [heq] at h
    cases h
  · simp

/-- The features a successful provider call leaves in the layer are the streamed
features in order, each with its own tags and nothing else. -/
theorem TileFeatures_tags {G T V : Type} (W : World G T V) (fs : List (Feature G))
    (err : Option Error) (acc ml : MvtLayer T)
    (h : ProviderCall.TileFeatures (encodeCallback W) fs err acc = (ml, none)) :
    ml.Name = acc.Name ∧
      ml.features.map (fun f => f.Tags) = acc.features.map (fun f => f.Tags)
        ++ fs.map (fun f => f.Tags) := by
  induction fs generalizing acc with
  | nil =>
    simp only [ProviderCall.TileFeatures, Prod.mk.injEq] at h
    rw [← h.1]
    simp
  | cons f fs ih =>
    unfold ProviderCall.TileFeatures at h
    unfold encodeCallback at h
    cases hg : W.ToTegola f.Geometry with
    | error e =>
      rw [hg] at h
      simp at h
    | ok geo =>
      rw [hg] at h
      obtain ⟨h1, h2⟩ := ih _ h
      refine ⟨by simpa [MvtLayer.AddFeatures] using h1, ?_⟩
      rw [h2]
      simp [MvtLayer.AddFeatures]

/-- Every feature of the layer stored by a successful task carries exactly the
tags of the streamed feature it comes from. -/
theorem encodeTask_tags {G T V : Type} (W : World G T V) (ctx : Context) (tile : Tile)
    (i : Nat) (l : Layer) (ml : MvtLayer T) (h : (encodeTask W ctx tile i l).slot = some ml) :
    ml.features.map (fun f => f.Tags)
      = (W.TileFeatures i l.Provider ctx l.ProviderLayerName tile).features.map
          (fun f => f.Tags) := by
  unfold encodeTask at h
  split at h
  · cases h
  · cases h
  · rename_i mvtLayer heq
    have htags := (TileFeatures_tags W _ _ _ _ heq).2
    simp only [Option.some.injEq] at h
    rw [← h]
    split <;> simpa using htags

/-! ## The layer filters: theorems -/

/-- C1: the layers of `FilterLayersByZoom m zoom` are exactly the layers of `m`,
in their original order, with (MinZoom <= zoom or MinZoom = 0) and (MaxZoom >=
zoom or MaxZoom = 0); on one layer with zooms 4..9 followed by one with zooms
10..20, zoom 5 keeps only the first. -/
theorem FilterLayersByZoom_spec :
    (∀ (m : Map) (zoom : Int), (FilterLayersByZoom m zoom).Layers
        = m.Layers.filter (fun l =>
            decide ((l.MinZoom ≤ zoom ∨ l.MinZoom = 0) ∧ (l.MaxZoom ≥ zoom ∨ l.MaxZoom = 0))))
    ∧ (∀ (m : Map) (l1 l2 : Layer),
        (FilterLayersByZoom
          { m with Layers := [{ l1 with MinZoom := 4, MaxZoom := 9 },
                              { l2 with MinZoom := 10, MaxZoom := 20 }] } 5).Layers
          = [{ l1 with MinZoom := 4, MaxZoom := 9 }])
    ∧ (FilterLayersByZoom testMap 5).Layers = [testLayer1] := by
  refine ⟨?_, ?_, by decide⟩
  · intro m zoom
    rw [FilterLayersByZoom_layers]
    congr 1
    funext l
    unfold zoomMatches
    rw [Bool.eq_iff_iff]
    simp
  · intro m l1 l2
    rw [FilterLayersByZoom_layers]
    simp [zoomMatches, List.filter_cons]

/-- C4: the layers returned by `FilterLayersByZoom` and by `FilterLayersByName`
are each a subsequence of `m.Layers`: every returned layer is a layer of `m`, no
layer is returned more often than it occurs in `m.Layers`, and the relative order
is kept. -/
theorem filters_subsequence (m : Map) (zoom : Int) (names : List String) :
    (FilterLayersByZoom m zoom).Layers.Sublist m.Layers
    ∧ (FilterLayersByName m names).Layers.Sublist m.Layers
    ∧ (∀ l ∈ (FilterLayersByZoom m zoom).Layers, l ∈ m.Layers)
    ∧ (∀ l ∈ (FilterLayersByName m names).Layers, l ∈ m.Layers)
    ∧ (∀ l, (FilterLayersByZoom m zoom).Layers.count l ≤ m.Layers.count l)
    ∧ (∀ l, (FilterLayersByName m names).Layers.count l ≤ m.Layers.count l) := by
  have hz : (FilterLayersByZoom m zoom).Layers.Sublist m.Layers := by
    rw [FilterLayersByZoom_layers]
    exact List.filter_sublist _
  have hn : (FilterLayersByName m names).Layers.Sublist m.Layers := by
    rw [FilterLayersByName_layers]
    exact List.filter_sublist _
  exact ⟨hz, hn, fun l hl => hz.subset hl, fun l hl => hn.subset hl,
    fun l => hz.count_le l, fun l => hn.count_le l⟩

/-- C2: on `testMap`, the request for the single name `test-layer-2-name` returns
all three layers, although neither the Name nor the ProviderLayerName of
`testLayer1` and `testLayer3` equals the requested name: the lookup is a
substring test on the comma-joined names. -/
theorem FilterLayersByName_substring_match :
    (FilterLayersByName testMap ["test-layer-2-name"]).Layers
        = [testLayer1, testLayer2, testLayer3]
    ∧ testLayer1.Name ∉ ["test-layer-2-name"]
    ∧ testLayer1.ProviderLayerName ∉ ["test-layer-2-name"]
    ∧ testLayer3.Name ∉ ["test-layer-2-name"]
    ∧ testLayer3.ProviderLayerName ∉ ["test-layer-2-name"] := by
  decide

/-- C3: two requests with the same names in a different order give different
results on a map whose layer is named `land,water`: the layer is returned for
`land`, `water` and not for `water`, `land`. -/
theorem FilterLayersByName_order_sensitive :
    List.Perm ["water", "land"] ["land", "water"]
    ∧ (FilterLayersByName { testMap with Layers := [commaLayer] } ["land", "water"]).Layers
        = [commaLayer]
    ∧ (FilterLayersByName { testMap with Layers := [commaLayer] } ["water", "land"]).Layers
        = [] := by
  refine ⟨List.Perm.swap _ _ _, by decide, by decide⟩

/-- C10: `testLayer2` has the display name `test-layer-2-name`, which does not
occur in the request for `test-layer-2-provider-layer-name`, not even as a
substring; the layer is returned all the same, through its ProviderLayerName. -/
theorem FilterLayersByName_provider_name_fallthrough :
    testLayer2.Name ≠ ""
    ∧ Contains (Join ["test-layer-2-provider-layer-name"] ",") testLayer2.Name = false
    ∧ testLayer2.ProviderLayerName ∈ ["test-layer-2-provider-layer-name"]
    ∧ (FilterLayersByName { testMap with Layers := [testLayer2] }
        ["test-layer-2-provider-layer-name"]).Layers = [testLayer2] := by
  decide

/-! ## The encoder: theorems -/

/-- C5: if the context has an error at the check after the wait group, `Encode`
returns exactly that error and no bytes, whatever the provider calls returned and
in whatever order the tasks completed. -/
theorem Encode_context_error {G T V : Type} (W : World G T V) (m : Map) (ctx : Context)
    (tile : Tile) (sched : List (Nat × Layer)) (e : Error) (h : ctx.Err = some e) :
    Encode W m ctx tile sched = (none, some e) := by
  simp [Encode, h]

/-- Witness of C5: a context cancelled from the start, on `testMap`. -/
theorem Encode_context_error_witness :
    Encode failingWorld testMap { Err := some Error.Canceled } { Z := 2, X := 1, Y := 1 }
      testMap.Layers.enum.reverse = (none, some Error.Canceled) :=
  Encode_context_error failingWorld testMap { Err := some Error.Canceled }
    { Z := 2, X := 1, Y := 1 } testMap.Layers.enum.reverse Error.Canceled rfl

/-- C6, amended: with an uncancelled context, if exactly the provider call of
layer `k` returns an error, and that error is not the cancellation error, then
slot `k` is left unpopulated (and the failure is logged), the assembled tile
holds exactly the other slots, in order, so `N - 1` layers and no placeholder,
and `Encode` returns what assembling that tile gives: the error of `VTile` when
`VTile` reports one, otherwise the result of `Marshal`, hence no overall error
unless `VTile` or `Marshal` itself reports one. -/
theorem Encode_one_failed_layer {G T V : Type} (W : World G T V) (m : Map) (ctx : Context)
    (tile : Tile) (sched : List (Nat × Layer)) (k : Nat) (e : Error)
    (hctx : ctx.Err = none) (hs : sched.Perm m.Layers.enum) (hk : k < m.Layers.length)
    (hfail : (encodeFetch W ctx tile k m.Layers[k]).2 = some e) (he : e ≠ Error.Canceled)
    (hok : ∀ (i : Nat) (hi : i < m.Layers.length), i ≠ k →
      (encodeFetch W ctx tile i m.Layers[i]).2 = none) :
    (encodeSlots W m ctx tile sched)[k]? = some none
    ∧ (encodeTask W ctx tile k m.Layers[k]).logged = true
    ∧ (encodeTile W m ctx tile sched).layers.map some
        = (encodeSlots W m ctx tile sched).eraseIdx k
    ∧ (encodeTile W m ctx tile sched).layers.length = m.Layers.length - 1
    ∧ (∀ v, W.VTile ctx (encodeTile W m ctx tile sched) tile.ZXY = Except.ok v →
        Encode W m ctx tile sched = W.Marshal v)
    ∧ (∀ v b, W.VTile ctx (encodeTile W m ctx tile sched) tile.ZXY = Except.ok v →
        W.Marshal v = (some b, none) → Encode W m ctx tile sched = (some b, none))
    ∧ (∀ err, W.VTile ctx (encodeTile W m ctx tile sched) tile.ZXY = Except.error err →
        Encode W m ctx tile sched = (none, some err)) := by
  have hslots := encodeSlots_eq W m ctx tile sched hs
  have hlen : (encodeSlots W m ctx tile sched).length = m.Layers.length := by
    rw [hslots]
    simp
  have hget : ∀ (i : Nat) (hi : i < m.Layers.length),
      (encodeSlots W m ctx tile sched)[i]? = some (encodeTask W ctx tile i m.Layers[i]).slot := by
    intro i hi
    rw [hslots]
    simp [List.getElem?_map, List.getElem?_enum, List.getElem?_eq_getElem hi]
  have hkslot : (encodeSlots W m ctx tile sched)[k]? = some none := by
    rw [hget k hk, encodeTask_slot_of_error W ctx tile k _ e hfail]
  have hothers : ∀ i, i ≠ k → (encodeSlots W m ctx tile sched)[i]? ≠ some none := by
    intro i hik hnone
    rcases Nat.lt_or_ge i m.Layers.length with hlt | hge
    · rw [hget i hlt] at hnone
      exact encodeTask_slot_of_ok W ctx tile i _ (hok i hlt hik) (Option.some.inj hnone)
    · rw [List.getElem?_eq_none (by omega)] at hnone
      cases hnone
  have hlayers : (encodeTile W m ctx tile sched).layers.map some
      = (encodeSlots W m ctx tile sched).eraseIdx k := by
    simp only [encodeTile, MvtTile.AddLayers, List.nil_append]
    exact reduceOption_eraseIdx _ k hkslot hothers
  have hcount : (encodeTile W m ctx tile sched).layers.length = m.Layers.length - 1 := by
    have h1 := congrArg List.length hlayers
    rw [List.length_map, List.length_eraseIdx, hlen] at h1
    simpa [hk] using h1
  have henc : ∀ v, W.VTile ctx (encodeTile W m ctx tile sched) tile.ZXY = Except.ok v →
      Encode W m ctx tile sched = W.Marshal v := by
    intro v hv
    unfold encodeTile at hv
    simp [Encode, hctx, hv]
  have herr : ∀ err, W.VTile ctx (encodeTile W m ctx tile sched) tile.ZXY = Except.error err →
      Encode W m ctx tile sched = (none, some err) := by
    intro err hv
    unfold encodeTile at hv
    simp [Encode, hctx, hv]
  exact ⟨hkslot, encodeTask_logged_of_error W ctx tile k _ e hfail he, hlayers, hcount, henc,
    fun v b hv hb => (henc v hv).trans hb, herr⟩

/-- Witness of C6: `testMap` with the provider call of slot 1 failing with a
backend error, the tasks completing in reverse order: slot 1 stays empty, the
tile has two layers, and `Encode` returns bytes and no error. -/
theorem Encode_one_failed_layer_witness :
    (encodeSlots failingWorld testMap { Err := none } { Z := 2, X := 1, Y := 1 }
        testMap.Layers.enum.reverse)[1]? = some none
    ∧ (encodeTile failingWorld testMap { Err := none } { Z := 2, X := 1, Y := 1 }
        testMap.Layers.enum.reverse).layers.length = testMap.Layers.length - 1
    ∧ Encode failingWorld testMap { Err := none } { Z := 2, X := 1, Y := 1 }
        testMap.Layers.enum.reverse = (some [2, 1, 1], none) := by
  have h := Encode_one_failed_layer failingWorld testMap { Err := none }
    { Z := 2, X := 1, Y := 1 } testMap.Layers.enum.reverse 1 (Error.Other "backend down")
    rfl (List.reverse_perm _) (by decide) (by decide) (by decide)
    (fun i hi hne => by
      have hcases : i = 0 ∨ i = 2 := by
        have : i < 3 := hi
        omega
      rcases hcases with rfl | rfl <;> rfl)
  exact ⟨h.1, h.2.2.2.1, h.2.2.2.2.2.1 [2, 1, 1] [2, 1, 1] rfl rfl⟩

/-- Counterexample to C6 as stated: on `testMap` with an uncancelled context, the
provider call of slot 1 returns a backend error (not the cancellation error) and
the calls of slots 0 and 2 succeed, yet `Encode` returns an overall error and no
bytes, because `VTile` fails on the assembled tile; so the provider hypotheses
alone do not give "no overall error". -/
theorem Encode_assembler_error_counterexample :
    Encode brokenAssemblerWorld testMap { Err := none } { Z := 2, X := 1, Y := 1 }
        testMap.Layers.enum.reverse = (none, some (Error.Other "vtile failed"))
    ∧ ¬ (∀ (W : World Nat Nat (List Nat)) (m : Map) (ctx : Context) (tile : Tile)
          (sched : List (Nat × Layer)) (k : Nat) (e : Error),
          ctx.Err = none → sched.Perm m.Layers.enum → ∀ (hk : k < m.Layers.length),
          (encodeFetch W ctx tile k m.Layers[k]).2 = some e → e ≠ Error.Canceled →
          (∀ (i : Nat) (hi : i < m.Layers.length), i ≠ k →
            (encodeFetch W ctx tile i m.Layers[i]).2 = none) →
          (Encode W m ctx tile sched).2 = none) := by
  refine ⟨rfl, ?_⟩
  intro hclaim
  have h := hclaim brokenAssemblerWorld testMap { Err := none } { Z := 2, X := 1, Y := 1 }
    testMap.Layers.enum.reverse 1 (Error.Other "backend down")
    rfl (List.reverse_perm _) (by decide) (by decide) (by decide)
    (fun i hi hne => by
      have hcases : i = 0 ∨ i = 2 := by
        have : i < 3 := hi
        omega
      rcases hcases with rfl | rfl <;> rfl)
  exact absurd h (by decide)

/-- C7: with an uncancelled context, whatever the order `sched` in which the
per-layer tasks complete, there is one result slot per layer, slot `i` holds what
the task of `m.Layers[i]` produced, the tile handed to `VTile` lists the
populated slots in the order of `m.Layers`, and a populated slot `i` comes before
a populated slot `j` in that tile whenever `i < j`. -/
theorem Encode_layer_order {G T V : Type} (W : World G T V) (m : Map) (ctx : Context)
    (tile : Tile) (sched : List (Nat × Layer))
    (hctx : ctx.Err = none) (hs : sched.Perm m.Layers.enum) :
    (encodeSlots W m ctx tile sched).length = m.Layers.length
    ∧ (∀ (i : Nat) (hi : i < m.Layers.length),
        (encodeSlots W m ctx tile sched)[i]? = some (encodeTask W ctx tile i m.Layers[i]).slot)
    ∧ (encodeTile W m ctx tile sched).layers
        = m.Layers.enum.filterMap (fun t => (encodeTask W ctx tile t.1 t.2).slot)
    ∧ (∀ (i j : Nat) (a b : MvtLayer T), i < j →
        (encodeSlots W m ctx tile sched)[i]? = some (some a) →
        (encodeSlots W m ctx tile sched)[j]? = some (some b) →
        ∃ p q : Nat, p < q ∧ (encodeTile W m ctx tile sched).layers[p]? = some a
          ∧ (encodeTile W m ctx tile sched).layers[q]? = some b)
    ∧ Encode W m ctx tile sched =
        (match W.VTile ctx
            { layers := m.Layers.enum.filterMap (fun t => (encodeTask W ctx tile t.1 t.2).slot) }
            tile.ZXY with
          | Except.error err => (none, some err)
          | Except.ok vtile => W.Marshal vtile) := by
  have hslots := encodeSlots_eq W m ctx tile sched hs
  have hlayers : (encodeTile W m ctx tile sched).layers
      = m.Layers.enum.filterMap (fun t => (encodeTask W ctx tile t.1 t.2).slot) := by
    simp only [encodeTile, MvtTile.AddLayers, List.nil_append, hslots, List.reduceOption,
      List.filterMap_map]
    rfl
  have htile : encodeTile W m ctx tile sched
      = { layers := m.Layers.enum.filterMap (fun t => (encodeTask W ctx tile t.1 t.2).slot) } := by
    rw [← hlayers]
  refine ⟨?_, ?_, hlayers, ?_, ?_⟩
  · rw [hslots]
    simp
  · intro i hi
    rw [hslots]
    simp [List.getElem?_map, List.getElem?_enum, List.getElem?_eq_getElem hi]
  · intro i j a b hij hi hj
    have hred : (encodeTile W m ctx tile sched).layers
        = (encodeSlots W m ctx tile sched).reduceOption := by
      simp [encodeTile, MvtTile.AddLayers]
    rw [hred]
    exact reduceOption_precedes _ i j a b hij hi hj
  · unfold encodeTile at htile
    simp only [Encode, hctx, htile]

/-- Witness of C7: `testMap` with the tasks completing in reverse order. -/
theorem Encode_layer_order_witness :
    (encodeTile testWorld testMap { Err := none } { Z := 2, X := 1, Y := 1 }
        testMap.Layers.enum.reverse).layers
      = testMap.Layers.enum.filterMap
          (fun t => (encodeTask testWorld { Err := none } { Z := 2, X := 1, Y := 1 } t.1 t.2).slot) :=
  (Encode_layer_order testWorld testMap { Err := none } { Z := 2, X := 1, Y := 1 }
    testMap.Layers.enum.reverse rfl (List.reverse_perm _)).2.2.1

/-- C8: the task of `testLayer1`, whose DefaultTags map `foo` to `bar`, run on the
feature streamed by the test provider, succeeds and stores a layer whose only
feature carries the feature's own tag `type` and no tag `foo`: the default tags
are not merged in. -/
theorem Encode_default_tags_not_merged :
    (encodeTask testWorld { Err := none } { Z := 2, X := 1, Y := 1 } 0 testLayer1).slot
      = some { Name := "test-layer",
               features := [{ ID := some 0, Tags := [("type", "debug_buffer_outline")],
                              Geometry := 0 }] }
    ∧ testLayer1.DefaultTags.lookup "foo" = some "bar"
    ∧ (testTileProvider.features.map (fun f => f.Tags.lookup "foo")) = [none]
    ∧ ((encodeTask testWorld { Err := none } { Z := 2, X := 1, Y := 1 } 0 testLayer1).slot.map
        (fun ml => ml.features.map (fun f => f.Tags.lookup "foo"))) = some [none] := by
  decide

end Atlas
